import Mathlib

/-!
Shallow embedding of the note-parsing core of `app.py` (`parse_notes` and the
regular-expression searches it performs), together with proofs of the spec's
testable properties.  Strings are modelled as `List Char`; the Python regex
searches are modelled character by character with the same leftmost-match,
greedy-with-backtracking semantics as the patterns in the source.  Python's
`\s` and `str.strip()` are modelled over the ASCII whitespace characters.
-/

namespace Billing

/-- ASCII model of Python's whitespace class (`\s` in patterns, `str.strip()`). -/
def pyWs (c : Char) : Bool :=
  c = ' ' || c = '\t' || c = '\n' || c = '\r' || c = '\x0b' || c = '\x0c'

/-- Model of Python `str.strip()`: drop leading and trailing whitespace. -/
def pyStrip (l : List Char) : List Char :=
  ((l.dropWhile pyWs).reverse.dropWhile pyWs).reverse

/-- The character class `[0-9]`. -/
def isDigitC (c : Char) : Bool := '0' ≤ c && c ≤ '9'

/-- The literal marker `Client:` of the client pattern and of `re.split`. -/
def clientMarker : List Char := "Client:".data

/-- The literal marker of the `Rendering Provider:` pattern. -/
def providerMarker : List Char := "Rendering Provider:".data

/-- The literal marker of the `Date:` pattern. -/
def dateMarker : List Char := "Date:".data

/-- The literal marker of the `Session Time:` pattern (matched case-insensitively). -/
def sessionMarker : List Char := "Session Time:".data

/-- `re.search` position scan: try the anchored matcher `f` at every suffix,
left to right, and return the first success. -/
def scan (f : List Char → Option α) : List Char → Option α
  | [] => f []
  | c :: t =>
    match f (c :: t) with
    | some v => some v
    | none => scan f t

/-- Greedy `\s*` followed by continuation `k`, with backtracking: the longest
whitespace prefix is tried first, then shorter ones. -/
def wsThen (k : List Char → Option α) : List Char → Option α
  | [] => k []
  | c :: t =>
    if pyWs c then
      match wsThen k t with
      | some v => some v
      | none => k (c :: t)
    else k (c :: t)

/-- A greedy one-or-more group `[^…]+` over the characters rejected by `bad`:
fails if the first character is rejected, otherwise captures the maximal run. -/
def plusGroup (bad : Char → Bool) (l : List Char) : Option (List Char) :=
  match l with
  | [] => none
  | c :: t =>
    if bad c then none
    else some ((c :: t).takeWhile (fun x => !bad x))

/-- The shape `[0-9]{4}/[0-9]{2}/[0-9]{2}` (exactly ten characters). -/
def dateShapeB : List Char → Bool
  | [a, b, c, d, s1, e, f, s2, g, h] =>
    isDigitC a && isDigitC b && isDigitC c && isDigitC d && s1 = '/' &&
      isDigitC e && isDigitC f && s2 = '/' && isDigitC g && isDigitC h
  | _ => false

/-- The anchored date token: the pattern has fixed counts, so it matches iff the
next ten characters have the `YYYY/MM/DD` digit shape; the capture is that
ten-character prefix. -/
def dateTok (l : List Char) : Option (List Char) :=
  if dateShapeB (l.take 10) then some (l.take 10) else none

/-- Case-insensitive literal prefix test, as `re.IGNORECASE` treats letters. -/
def ciPrefix (m l : List Char) : Bool :=
  (m.map Char.toLower).isPrefixOf (l.map Char.toLower)

/-- `[0-9]{1,2}` then continuation: greedy, two digits tried before one. -/
def hourThen (k : List Char → Option α) : List Char → Option α
  | [] => none
  | [c] => if isDigitC c then k [] else none
  | c :: d :: t =>
    if isDigitC c then
      if isDigitC d then
        match k t with
        | some v => some v
        | none => k (d :: t)
      else k (d :: t)
    else none

/-- A literal character then continuation. -/
def litThen (ch : Char) (k : List Char → Option α) : List Char → Option α
  | [] => none
  | c :: t => if c = ch then k t else none

/-- `[0-9]{2}` then continuation. -/
def mmThen (k : List Char → Option α) : List Char → Option α
  | c :: d :: t => if isDigitC c && isDigitC d then k t else none
  | _ => none

/-- `(?:AM|PM)?` under `re.IGNORECASE`, then continuation: the two-letter
meridiem is tried first (AM and PM are disjoint on their first letter), and on
failure the optional group matches empty. -/
def merThen (k : List Char → Option α) (l : List Char) : Option α :=
  match l with
  | a :: b :: t =>
    if (a.toLower = 'a' || a.toLower = 'p') && b.toLower = 'm' then
      match k t with
      | some v => some v
      | none => k l
    else k l
  | _ => k l

/-- The time-range alternative
`[0-9]{1,2}:[0-9]{2}\s*(?:AM|PM)?\s*-\s*[0-9]{1,2}:[0-9]{2}\s*(?:AM|PM)?`
of the session-time pattern, in backtracking order; returns the suffix left
after the first successful parse. -/
def timeRange : List Char → Option (List Char) :=
  hourThen (litThen ':' (mmThen (wsThen (merThen (wsThen (litThen '-'
    (wsThen (hourThen (litThen ':' (mmThen (wsThen (merThen some))))))))))))

/-- The optional group `(?:(range)|-)?` of the session-time pattern: it always
succeeds; group 1 is the captured range when the range alternative matches, and
is absent both for the bare-dash alternative and for the empty match. -/
def sessionGroup (l : List Char) : Option (Option (List Char)) :=
  match timeRange l with
  | some rem => some (some (l.take (l.length - rem.length)))
  | none => some none

/-- `re.search(r"Client:\s*([^\n,]+)", block)`, returning group 1. -/
def searchClient : List Char → Option (List Char) :=
  scan fun q =>
    if clientMarker.isPrefixOf q then
      wsThen (plusGroup fun c => c = '\n' || c = ',') (q.drop clientMarker.length)
    else none

/-- `re.search(r"Rendering Provider:\s*([^\n]+)", block)`, returning group 1. -/
def searchProvider : List Char → Option (List Char) :=
  scan fun q =>
    if providerMarker.isPrefixOf q then
      wsThen (plusGroup fun c => c = '\n') (q.drop providerMarker.length)
    else none

/-- `re.search(r"Date:\s*([0-9]{4}/[0-9]{2}/[0-9]{2})", block)`, returning group 1. -/
def searchDate : List Char → Option (List Char) :=
  scan fun q =>
    if dateMarker.isPrefixOf q then wsThen dateTok (q.drop dateMarker.length)
    else none

/-- The session-time search with `re.IGNORECASE`: `some r` is a match object
with optional group 1 `r`; `none` means no match (marker absent). -/
def searchSessionTime : List Char → Option (Option (List Char)) :=
  scan fun q =>
    if ciPrefix sessionMarker q then wsThen sessionGroup (q.drop sessionMarker.length)
    else none

/-- `client_match.group(1).strip() if client_match else ""`. -/
def clientNameOf (b : List Char) : List Char :=
  match searchClient b with
  | some g => pyStrip g
  | none => []

/-- `provider_match.group(1).strip() if provider_match else ""`. -/
def providerValueOf (b : List Char) : List Char :=
  match searchProvider b with
  | some g => pyStrip g
  | none => []

/-- `date_match.group(1) if date_match else ""`. -/
def dateValueOf (b : List Char) : List Char :=
  match searchDate b with
  | some v => v
  | none => []

/-- The session-time value: group 1 when the match captured a range, `""` when
group 1 is absent (bare dash or nothing) or when there is no match. -/
def sessionValueOf (b : List Char) : List Char :=
  match searchSessionTime b with
  | some (some cap) => cap
  | some none => []
  | none => []

/-- One output row of `parse_notes`: the four named string fields. -/
structure Record where
  client : String
  renderingProvider : String
  date : String
  sessionTime : String
deriving DecidableEq

/-- The body of the `for block in blocks` loop: strip the block, skip it when
empty or when no non-empty client name is found, otherwise build the record. -/
def recordOfBlock (block : List Char) : Option Record :=
  if pyStrip block = [] then none
  else if clientNameOf (pyStrip block) = [] then none
  else some ⟨⟨clientNameOf (pyStrip block)⟩, ⟨providerValueOf (pyStrip block)⟩,
    ⟨dateValueOf (pyStrip block)⟩, ⟨sessionValueOf (pyStrip block)⟩⟩

/-- Worker for `re.split(r"(?=Client:)", text)`: a zero-width split point sits at
every position where the marker starts, and the marker stays with the following
piece; `acc` holds the reversed current piece. -/
def splitAux : List Char → List Char → List (List Char)
  | [], acc => [acc.reverse]
  | c :: t, acc =>
    if clientMarker.isPrefixOf (c :: t) then acc.reverse :: splitAux t [c]
    else splitAux t (c :: acc)

/-- `re.split(r"(?=Client:)", text)`. -/
def splitClient (s : List Char) : List (List Char) := splitAux s []

/-- `parse_notes`: split the text on the client marker, keep one record per
valid block, in order. -/
def parse_notes (text : String) : List Record :=
  (splitClient text.data).filterMap recordOfBlock

/-- Substring containment test: some suffix of `s` starts with `m`. -/
def hasMarker (m : List Char) : List Char → Bool
  | [] => m.isPrefixOf ([] : List Char)
  | c :: t => m.isPrefixOf (c :: t) || hasMarker m t

/-- Modelled from the spec: "find `Client:` followed by any characters up to the
first newline or comma; trim whitespace" — the value the spec assigns to the
Client field of a block (used to compare the spec's description with the code). -/
def specClientValue (block : List Char) : List Char :=
  match scan (fun q =>
      if clientMarker.isPrefixOf q then some (q.drop clientMarker.length) else none)
      block with
  | some rest => pyStrip (rest.takeWhile fun c => !(c = '\n' || c = ','))
  | none => []

/-- Predicate used for the capture of `timeRange`: a matcher only ever returns a
suffix of its input. -/
def SuffSafe (k : List Char → Option (List Char)) : Prop :=
  ∀ l r, k l = some r → ∃ c, l = c ++ r

/-- Model of Python attribute access `o.group(1)` on a possibly absent value:
dereferencing `None` raises, modelled as an `Except` error. -/
def deref (o : Option α) : Except String α :=
  match o with
  | some v => .ok v
  | none => .error "NoneType has no group"

/-- Exception-aware version of the loop body: every place the Python code would
dereference a possibly-`None` match object goes through `deref`. -/
def recordOfBlockE (block : List Char) : Except String (Option Record) :=
  if pyStrip block = [] then .ok none
  else
    match (if (searchClient (pyStrip block)).isSome then
        (deref (searchClient (pyStrip block))).map pyStrip
      else .ok []) with
    | .error e => .error e
    | .ok clientName =>
      if clientName = [] then .ok none
      else
        match (if (searchProvider (pyStrip block)).isSome then
            (deref (searchProvider (pyStrip block))).map pyStrip
          else .ok []) with
        | .error e => .error e
        | .ok provider =>
          match (if (searchDate (pyStrip block)).isSome then
              deref (searchDate (pyStrip block))
            else .ok []) with
          | .error e => .error e
          | .ok dateValue =>
            .ok (some ⟨⟨clientName⟩, ⟨provider⟩, ⟨dateValue⟩,
              ⟨sessionValueOf (pyStrip block)⟩⟩)

/-- Exception-aware collection of the per-block results, in order. -/
def collectE : List (List Char) → Except String (List Record)
  | [] => .ok []
  | b :: bs =>
    match recordOfBlockE b with
    | .error e => .error e
    | .ok none => collectE bs
    | .ok (some r) =>
      match collectE bs with
      | .error e => .error e
      | .ok rest => .ok (r :: rest)

/-- Exception-aware version of `parse_notes`. -/
def parseNotesE (text : String) : Except String (List Record) :=
  collectE (splitClient text.data)

/- ### Generic lemmas about the scanning and matching combinators -/

theorem mk_nil_eq_empty : (⟨[]⟩ : String) = "" := rfl

theorem scan_eq_some {α : Type} {f : List Char → Option α} {s : List Char} {v : α}
    (h : scan f s = some v) : ∃ p q, s = p ++ q ∧ f q = some v := by
  induction s with
  | nil => exact ⟨[], [], rfl, h⟩
  | cons c t ih =>
    simp only [scan] at h
    split at h
    · rename_i w hf
      cases h
      exact ⟨[], c :: t, rfl, hf⟩
    · obtain ⟨p, q, rfl, hq⟩ := ih h
      exact ⟨c :: p, q, rfl, hq⟩

theorem scan_eq_none {α : Type} {f : List Char → Option α} {s : List Char}
    (h : ∀ q, q <:+ s → f q = none) : scan f s = none := by
  induction s with
  | nil => simpa only [scan] using h [] (List.suffix_refl [])
  | cons c t ih =>
    simp only [scan]
    rw [h (c :: t) (List.suffix_refl _)]
    exact ih fun q hq => h q (hq.trans (List.suffix_cons c t))

theorem scan_cons_of_some {α : Type} {f : List Char → Option α} {s : List Char} {v : α}
    (hs : s ≠ []) (h : f s = some v) : scan f s = some v := by
  cases s with
  | nil => exact absurd rfl hs
  | cons c t => simp [scan, h]

theorem wsThen_eq_some {α : Type} {k : List Char → Option α} {l : List Char} {v : α}
    (h : wsThen k l = some v) :
    ∃ w rest, l = w ++ rest ∧ (∀ c ∈ w, pyWs c = true) ∧ k rest = some v := by
  induction l with
  | nil => exact ⟨[], [], rfl, by simp, h⟩
  | cons c t ih =>
    simp only [wsThen] at h
    split at h
    · rename_i hws
      split at h
      · rename_i w hw
        cases h
        obtain ⟨w1, rest, rfl, hall, hk⟩ := ih hw
        refine ⟨c :: w1, rest, rfl, ?_, hk⟩
        intro x hx
        rcases List.mem_cons.mp hx with h1 | h2
        · exact h1 ▸ hws
        · exact hall x h2
      · exact ⟨[], c :: t, rfl, by simp, h⟩
    · exact ⟨[], c :: t, rfl, by simp, h⟩

theorem dropWhile_head_not {p : Char → Bool} {l : List Char} {d : Char} {s : List Char}
    (h : l.dropWhile p = d :: s) : p d = false := by
  induction l with
  | nil => simp [List.dropWhile] at h
  | cons a t ih =>
    rw [List.dropWhile_cons] at h
    split at h
    · exact ih h
    · rename_i hpa
      cases h
      exact Bool.not_eq_true _ ▸ Bool.of_not_eq_true hpa

theorem plusGroup_eq_some {bad : Char → Bool} {l g : List Char}
    (h : plusGroup bad l = some g) :
    ∃ s, l = g ++ s ∧ g ≠ [] ∧ (∀ c ∈ g, bad c = false) ∧
      (s = [] ∨ ∃ d s', s = d :: s' ∧ bad d = true) := by
  match l with
  | [] => simp [plusGroup] at h
  | c :: t =>
    simp only [plusGroup] at h
    split at h
    · cases h
    · rename_i hbad
      cases h
      refine ⟨(c :: t).dropWhile (fun x => !bad x),
        (List.takeWhile_append_dropWhile ..).symm, ?_, ?_, ?_⟩
      · rw [List.takeWhile_cons_of_pos (by simpa using Bool.of_not_eq_true hbad)]
        simp
      · intro x hx
        have := List.mem_takeWhile_imp hx
        simpa using this
      · cases hs : (c :: t).dropWhile (fun x => !bad x) with
        | nil => exact Or.inl rfl
        | cons d s' =>
          refine Or.inr ⟨d, s', rfl, ?_⟩
          have := dropWhile_head_not hs
          simpa using this

/- ### Occurrence lemmas -/

theorem hasMarker_suffix_false {m s : List Char} (h : hasMarker m s = false) :
    ∀ q, q <:+ s → m.isPrefixOf q = false := by
  induction s with
  | nil =>
    intro q hq
    rw [List.suffix_nil.mp hq]
    simpa only [hasMarker] using h
  | cons c t ih =>
    simp only [hasMarker, Bool.or_eq_false_iff] at h
    intro q hq
    rcases List.suffix_cons_iff.mp hq with rfl | hq'
    · exact h.1
    · exact ih h.2 q hq'

theorem hasMarker_of_isPrefixOf {m s : List Char} (h : m.isPrefixOf s = true) :
    hasMarker m s = true := by
  cases s with
  | nil => simpa only [hasMarker] using h
  | cons c t => simp [hasMarker, h]

theorem hasMarker_cons {m s : List Char} (c : Char) (h : hasMarker m s = true) :
    hasMarker m (c :: s) = true := by
  simp [hasMarker, h]

theorem hasMarker_parts (m p q : List Char) : hasMarker m (p ++ m ++ q) = true := by
  induction p with
  | nil =>
    apply hasMarker_of_isPrefixOf
    exact List.isPrefixOf_iff_prefix.mpr
      (by simp only [List.nil_append]; exact List.prefix_append m q)
  | cons c t ih => simpa using hasMarker_cons c (by simp only [List.append_assoc] at ih ⊢; exact ih)

theorem hasMarker_exists_parts {m s : List Char} (h : hasMarker m s = true) :
    ∃ p q, s = p ++ m ++ q := by
  induction s with
  | nil =>
    simp only [hasMarker] at h
    have hm := List.isPrefixOf_iff_prefix.mp h
    obtain ⟨u, hu⟩ := hm
    rcases List.append_eq_nil.mp hu with ⟨rfl, rfl⟩
    exact ⟨[], [], rfl⟩
  | cons c t ih =>
    simp only [hasMarker, Bool.or_eq_true] at h
    rcases h with h | h
    · obtain ⟨u, hu⟩ := List.isPrefixOf_iff_prefix.mp h
      exact ⟨[], u, by simp [← hu]⟩
    · obtain ⟨p, q, rfl⟩ := ih h
      exact ⟨c :: p, q, rfl⟩

theorem pyStrip_infix (l : List Char) : ∃ a b, l = a ++ pyStrip l ++ b := by
  refine ⟨l.takeWhile pyWs, ((l.dropWhile pyWs).reverse.takeWhile pyWs).reverse, ?_⟩
  have h1 : l = l.takeWhile pyWs ++ l.dropWhile pyWs :=
    (List.takeWhile_append_dropWhile ..).symm
  have h2 : (l.dropWhile pyWs).reverse =
      (l.dropWhile pyWs).reverse.takeWhile pyWs ++ (l.dropWhile pyWs).reverse.dropWhile pyWs :=
    (List.takeWhile_append_dropWhile ..).symm
  have h3 : l.dropWhile pyWs =
      pyStrip l ++ ((l.dropWhile pyWs).reverse.takeWhile pyWs).reverse := by
    have h4 := congrArg List.reverse h2
    rw [List.reverse_reverse, List.reverse_append] at h4
    simpa [pyStrip] using h4
  rw [List.append_assoc, ← h3, ← h1]

theorem hasMarker_pyStrip {m l : List Char} (h : hasMarker m l = false) :
    hasMarker m (pyStrip l) = false := by
  cases hp : hasMarker m (pyStrip l) with
  | false => rfl
  | true =>
    exfalso
    obtain ⟨p, q, hpq⟩ := hasMarker_exists_parts hp
    obtain ⟨a, b, hab⟩ := pyStrip_infix l
    rw [hpq] at hab
    have : l = (a ++ p) ++ m ++ (q ++ b) := by rw [hab]; simp [List.append_assoc]
    rw [this, hasMarker_parts] at h
    cases h

theorem searchClient_eq_none {s : List Char} (h : hasMarker clientMarker s = false) :
    searchClient s = none := by
  apply scan_eq_none
  intro q hq
  rw [hasMarker_suffix_false h q hq]
  rfl

theorem searchProvider_eq_none {s : List Char} (h : hasMarker providerMarker s = false) :
    searchProvider s = none := by
  apply scan_eq_none
  intro q hq
  rw [hasMarker_suffix_false h q hq]
  rfl

theorem searchDate_eq_none {s : List Char} (h : hasMarker dateMarker s = false) :
    searchDate s = none := by
  apply scan_eq_none
  intro q hq
  rw [hasMarker_suffix_false h q hq]
  rfl

/- ### Decomposition of successful searches -/

theorem searchClient_eq_some {b g : List Char} (h : searchClient b = some g) :
    ∃ p w rest, b = p ++ clientMarker ++ w ++ rest ∧ (∀ c ∈ w, pyWs c = true) ∧
      plusGroup (fun c => c = '\n' || c = ',') rest = some g := by
  obtain ⟨p, q, rfl, hq⟩ := scan_eq_some (f := fun q =>
    if clientMarker.isPrefixOf q then
      wsThen (plusGroup fun c => c = '\n' || c = ',') (q.drop clientMarker.length)
    else none) h
  split at hq
  · rename_i hpre
    obtain ⟨q', rfl⟩ := List.isPrefixOf_iff_prefix.mp hpre
    rw [List.drop_left] at hq
    obtain ⟨w, rest, rfl, hw, hk⟩ := wsThen_eq_some hq
    exact ⟨p, w, rest, by simp [List.append_assoc], hw, hk⟩
  · cases hq

theorem searchDate_eq_some {b v : List Char} (h : searchDate b = some v) :
    ∃ p w rest, b = p ++ dateMarker ++ w ++ rest ∧ (∀ c ∈ w, pyWs c = true) ∧
      dateTok rest = some v := by
  obtain ⟨p, q, rfl, hq⟩ := scan_eq_some (f := fun q =>
    if dateMarker.isPrefixOf q then wsThen dateTok (q.drop dateMarker.length)
    else none) h
  split at hq
  · rename_i hpre
    obtain ⟨q', rfl⟩ := List.isPrefixOf_iff_prefix.mp hpre
    rw [List.drop_left] at hq
    obtain ⟨w, rest, rfl, hw, hk⟩ := wsThen_eq_some hq
    exact ⟨p, w, rest, by simp [List.append_assoc], hw, hk⟩
  · cases hq

theorem dateTok_eq_some {l v : List Char} (h : dateTok l = some v) :
    v = l.take 10 ∧ dateShapeB v = true ∧ l = v ++ l.drop 10 := by
  unfold dateTok at h
  split at h
  · rename_i hs
    cases h
    exact ⟨rfl, hs, (List.take_append_drop ..).symm⟩
  · cases h

theorem ciPrefix_decomp {m l : List Char} (h : ciPrefix m l = true) :
    ∃ m' t, l = m' ++ t ∧ m'.map Char.toLower = m.map Char.toLower := by
  have hp := List.isPrefixOf_iff_prefix.mp h
  refine ⟨l.take m.length, l.drop m.length, (List.take_append_drop ..).symm, ?_⟩
  have he := List.prefix_iff_eq_take.mp hp
  rw [List.length_map] at he
  rw [List.map_take]
  exact he.symm

/- ### The time-range matcher only consumes a prefix -/

theorem suffSafe_some : SuffSafe some := by
  intro l r h
  cases h
  exact ⟨[], rfl⟩

theorem hourThen_suffSafe {k : List Char → Option (List Char)} (hk : SuffSafe k) :
    SuffSafe (hourThen k) := by
  intro l r h
  match l with
  | [] => simp [hourThen] at h
  | [c] =>
    simp only [hourThen] at h
    split at h
    · obtain ⟨cc, hcc⟩ := hk [] r h
      rcases List.append_eq_nil.mp hcc.symm with ⟨rfl, rfl⟩
      exact ⟨[c], by simp⟩
    · cases h
  | c :: d :: t =>
    simp only [hourThen] at h
    split at h
    · split at h
      · split at h
        · rename_i v hv
          cases h
          obtain ⟨cc, rfl⟩ := hk t r hv
          exact ⟨c :: d :: cc, rfl⟩
        · obtain ⟨cc, hcc⟩ := hk (d :: t) r h
          exact ⟨c :: cc, by simp [hcc]⟩
      · obtain ⟨cc, hcc⟩ := hk (d :: t) r h
        exact ⟨c :: cc, by simp [hcc]⟩
    · cases h

theorem litThen_suffSafe {ch : Char} {k : List Char → Option (List Char)}
    (hk : SuffSafe k) : SuffSafe (litThen ch k) := by
  intro l r h
  match l with
  | [] => simp [litThen] at h
  | c :: t =>
    simp only [litThen] at h
    split at h
    · obtain ⟨cc, rfl⟩ := hk t r h
      exact ⟨c :: cc, rfl⟩
    · cases h

theorem mmThen_suffSafe {k : List Char → Option (List Char)} (hk : SuffSafe k) :
    SuffSafe (mmThen k) := by
  intro l r h
  match l with
  | [] => simp [mmThen] at h
  | [c] => simp [mmThen] at h
  | c :: d :: t =>
    simp only [mmThen] at h
    split at h
    · obtain ⟨cc, rfl⟩ := hk t r h
      exact ⟨c :: d :: cc, rfl⟩
    · cases h

theorem wsThen_suffSafe {k : List Char → Option (List Char)} (hk : SuffSafe k) :
    SuffSafe (wsThen k) := by
  intro l r h
  obtain ⟨w, rest, rfl, _, hkr⟩ := wsThen_eq_some h
  obtain ⟨cc, rfl⟩ := hk rest r hkr
  exact ⟨w ++ cc, by simp⟩

theorem merThen_suffSafe {k : List Char → Option (List Char)} (hk : SuffSafe k) :
    SuffSafe (merThen k) := by
  intro l r h
  match l with
  | [] => exact hk [] r h
  | [c] => exact hk [c] r h
  | a :: b :: t =>
    simp only [merThen] at h
    split at h
    · split at h
      · rename_i v hv
        cases h
        obtain ⟨cc, rfl⟩ := hk t r hv
        exact ⟨a :: b :: cc, rfl⟩
      · exact hk (a :: b :: t) r h
    · exact hk (a :: b :: t) r h

theorem timeRange_suffSafe : SuffSafe timeRange :=
  hourThen_suffSafe (litThen_suffSafe (mmThen_suffSafe (wsThen_suffSafe
    (merThen_suffSafe (wsThen_suffSafe (litThen_suffSafe (wsThen_suffSafe
      (hourThen_suffSafe (litThen_suffSafe (mmThen_suffSafe (wsThen_suffSafe
        (merThen_suffSafe suffSafe_some))))))))))))

theorem sessionGroup_eq_capture {l cap : List Char}
    (h : sessionGroup l = some (some cap)) :
    ∃ s, l = cap ++ s ∧ timeRange (cap ++ s) = some s := by
  unfold sessionGroup at h
  split at h
  · rename_i rem hrem
    cases h
    obtain ⟨cc, hcc⟩ := timeRange_suffSafe l rem hrem
    have hlen : l.length - rem.length = cc.length := by
      rw [hcc, List.length_append]
      omega
    rw [hlen, hcc, List.take_left]
    exact ⟨rem, rfl, hcc ▸ hrem⟩
  · cases h

theorem searchSessionTime_eq_capture {b cap : List Char}
    (h : searchSessionTime b = some (some cap)) :
    ∃ p m w s, b = p ++ m ++ w ++ cap ++ s ∧
      m.map Char.toLower = sessionMarker.map Char.toLower ∧
      (∀ c ∈ w, pyWs c = true) ∧ timeRange (cap ++ s) = some s := by
  obtain ⟨p, q, rfl, hq⟩ := scan_eq_some (f := fun q =>
    if ciPrefix sessionMarker q then wsThen sessionGroup (q.drop sessionMarker.length)
    else none) h
  split at hq
  · rename_i hpre
    obtain ⟨m, t, rfl, hm⟩ := ciPrefix_decomp hpre
    have hlen : m.length = sessionMarker.length := by
      have := congrArg List.length hm
      simpa using this
    rw [← hlen, List.drop_left] at hq
    obtain ⟨w, rest, rfl, hw, hk⟩ := wsThen_eq_some hq
    obtain ⟨s, rfl, htr⟩ := sessionGroup_eq_capture hk
    exact ⟨p, m, w, s, by simp [List.append_assoc], hm, hw, htr⟩
  · cases hq

/- ### Inversion of the loop body, and `filterMap` facts -/

theorem recordOfBlock_nil : recordOfBlock [] = none := rfl

theorem recordOfBlock_eq_some {block : List Char} {r : Record}
    (h : recordOfBlock block = some r) :
    pyStrip block ≠ [] ∧ clientNameOf (pyStrip block) ≠ [] ∧
      r = ⟨⟨clientNameOf (pyStrip block)⟩, ⟨providerValueOf (pyStrip block)⟩,
        ⟨dateValueOf (pyStrip block)⟩, ⟨sessionValueOf (pyStrip block)⟩⟩ := by
  unfold recordOfBlock at h
  by_cases h1 : pyStrip block = []
  · rw [if_pos h1] at h; cases h
  · rw [if_neg h1] at h
    by_cases h2 : clientNameOf (pyStrip block) = []
    · rw [if_pos h2] at h; cases h
    · rw [if_neg h2] at h
      cases h
      exact ⟨h1, h2, rfl⟩

theorem recordOfBlock_eq_none_of_no_client {block : List Char}
    (h : clientNameOf (pyStrip block) = []) : recordOfBlock block = none := by
  unfold recordOfBlock
  rw [h]
  simp

theorem filterMap_sublist_forall2 {α β : Type} (l : List α) (f : α → Option β) :
    ∃ l', l'.Sublist l ∧
      List.Forall₂ (fun a b => f a = some b) l' (l.filterMap f) := by
  induction l with
  | nil => exact ⟨[], List.Sublist.refl _, by simp⟩
  | cons a t ih =>
    obtain ⟨l', hs, hf⟩ := ih
    cases hfa : f a with
    | none =>
      refine ⟨l', hs.cons a, ?_⟩
      rw [List.filterMap_cons, hfa]
      exact hf
    | some b =>
      refine ⟨a :: l', hs.cons₂ a, ?_⟩
      rw [List.filterMap_cons, hfa]
      exact List.Forall₂.cons hfa hf

/- ### Lemmas about the marker split -/

theorem isPrefixOf_append_left {m s : List Char} (t : List Char)
    (h : m.length ≤ s.length) : m.isPrefixOf (s ++ t) = m.isPrefixOf s := by
  cases hs : m.isPrefixOf s with
  | true =>
    exact List.isPrefixOf_iff_prefix.mpr
      ((List.isPrefixOf_iff_prefix.mp hs).trans (List.prefix_append s t))
  | false =>
    rw [Bool.eq_false_iff]
    intro hT
    have hp := List.prefix_iff_eq_take.mp (List.isPrefixOf_iff_prefix.mp hT)
    rw [List.take_append_eq_append_take, Nat.sub_eq_zero_of_le h, List.take_zero,
      List.append_nil] at hp
    have hm : m <+: s := List.prefix_iff_eq_take.mpr hp
    rw [List.isPrefixOf_iff_prefix.mpr hm] at hs
    cases hs

theorem border_free :
    ∀ k, k < clientMarker.length → 0 < k →
      clientMarker.drop k ≠ clientMarker.take (clientMarker.length - k) := by decide

theorem marker_no_span {b1 b2 : List Char} (hb2 : clientMarker.isPrefixOf b2 = true) :
    ∀ i, i < b1.length →
      clientMarker.isPrefixOf (List.drop i (b1 ++ b2)) =
        clientMarker.isPrefixOf (List.drop i b1) := by
  intro i hi
  rw [List.drop_append_eq_append_drop, Nat.sub_eq_zero_of_le (le_of_lt hi), List.drop_zero]
  by_cases hlen : clientMarker.length ≤ (List.drop i b1).length
  · exact isPrefixOf_append_left b2 hlen
  · have hR : clientMarker.isPrefixOf (List.drop i b1) = false := by
      rw [Bool.eq_false_iff]
      intro hT
      exact hlen (List.isPrefixOf_iff_prefix.mp hT).length_le
    rw [hR, Bool.eq_false_iff]
    intro hT
    obtain ⟨rest, hrest⟩ := List.isPrefixOf_iff_prefix.mp hb2
    have hEq := List.prefix_iff_eq_take.mp (List.isPrefixOf_iff_prefix.mp hT)
    have hslen : (List.drop i b1).length < clientMarker.length := lt_of_not_ge hlen
    have hpos : 0 < (List.drop i b1).length := by
      rw [List.length_drop]
      omega
    rw [← hrest, List.take_append_eq_append_take,
      List.take_of_length_le (le_of_lt hslen), List.take_append_eq_append_take] at hEq
    have h77 : clientMarker.length - (List.drop i b1).length - clientMarker.length = 0 := by
      omega
    rw [h77, List.take_zero, List.append_nil] at hEq
    have hdrop := congrArg (List.drop (List.drop i b1).length) hEq
    rw [List.drop_left] at hdrop
    exact border_free (List.drop i b1).length (by omega) hpos hdrop

theorem splitAux_no_marker {s : List Char}
    (h : ∀ q, q <:+ s → clientMarker.isPrefixOf q = false) :
    ∀ acc, splitAux s acc = [acc.reverse ++ s] := by
  induction s with
  | nil => intro acc; simp [splitAux]
  | cons c t ih =>
    intro acc
    simp only [splitAux]
    rw [h (c :: t) (List.suffix_refl _)]
    simp only [Bool.false_eq_true, if_false]
    rw [ih (fun q hq => h q (hq.trans (List.suffix_cons c t))) (c :: acc)]
    simp

theorem splitAux_append {b2 : List Char} (hb2 : clientMarker.isPrefixOf b2 = true) :
    ∀ (b1 acc : List Char),
      (∀ i, i < b1.length →
        clientMarker.isPrefixOf (List.drop i (b1 ++ b2)) =
          clientMarker.isPrefixOf (List.drop i b1)) →
      splitAux (b1 ++ b2) acc = splitAux b1 acc ++ (splitClient b2).tail := by
  intro b1
  induction b1 with
  | nil =>
    intro acc _
    cases b2 with
    | nil => exact absurd hb2 (by decide)
    | cons c t =>
      simp only [List.nil_append, splitAux, splitClient]
      rw [hb2]
      simp
  | cons c t ih =>
    intro acc hno
    have h0 : clientMarker.isPrefixOf (c :: (t ++ b2)) = clientMarker.isPrefixOf (c :: t) := by
      have := hno 0 (by simp)
      simpa using this
    have hno' : ∀ i, i < t.length →
        clientMarker.isPrefixOf (List.drop i (t ++ b2)) =
          clientMarker.isPrefixOf (List.drop i t) := by
      intro i hi
      have := hno (i + 1) (by simp only [List.length_cons]; omega)
      simpa using this
    simp only [List.cons_append, splitAux]
    cases hcp : clientMarker.isPrefixOf (c :: t) with
    | true =>
      rw [hcp] at h0
      simp only [List.append_eq, h0, hcp, if_true, List.cons_append]
      rw [ih [c] hno']
    | false =>
      rw [hcp] at h0
      simp only [List.append_eq, h0, hcp, Bool.false_eq_true, if_false]
      rw [ih (c :: acc) hno']

theorem splitClient_append {b1 b2 : List Char} (h2 : clientMarker.isPrefixOf b2 = true) :
    splitClient (b1 ++ b2) = splitClient b1 ++ (splitClient b2).tail :=
  splitAux_append h2 b1 [] (marker_no_span h2)

theorem splitClient_cons_of_marker {b : List Char} (h : clientMarker.isPrefixOf b = true) :
    splitClient b = [] :: (splitClient b).tail := by
  cases b with
  | nil => exact absurd h (by decide)
  | cons c t =>
    simp only [splitClient, splitAux]
    rw [h]
    simp

/- ### The session-time search at and before the marker -/

theorem sessionGroup_isSome (l : List Char) : ∃ o, sessionGroup l = some o := by
  unfold sessionGroup
  cases timeRange l with
  | some rem => exact ⟨_, rfl⟩
  | none => exact ⟨_, rfl⟩

theorem wsThen_sessionGroup_some (t : List Char) : ∃ o, wsThen sessionGroup t = some o := by
  induction t with
  | nil => simpa only [wsThen] using sessionGroup_isSome []
  | cons c t ih =>
    by_cases hws : pyWs c
    · obtain ⟨o, ho⟩ := ih
      exact ⟨o, by simp [wsThen, hws, ho]⟩
    · obtain ⟨o, ho⟩ := sessionGroup_isSome (c :: t)
      exact ⟨o, by simp [wsThen, hws, ho]⟩

theorem ciPrefix_congr {a l l' : List Char} (h : l.map Char.toLower = l'.map Char.toLower) :
    ciPrefix a l = ciPrefix a l' := by
  unfold ciPrefix
  rw [h]

theorem searchSession_at_marker {m t : List Char}
    (hm : m.map Char.toLower = sessionMarker.map Char.toLower) :
    searchSessionTime (m ++ t) = wsThen sessionGroup t := by
  have hlen : m.length = sessionMarker.length := by
    have := congrArg List.length hm
    simpa using this
  have hci : ciPrefix sessionMarker (m ++ t) = true := by
    unfold ciPrefix
    refine List.isPrefixOf_iff_prefix.mpr ?_
    rw [List.map_append, ← hm]
    exact List.prefix_append ..
  have hdrop : (m ++ t).drop sessionMarker.length = t := by
    rw [← hlen]
    exact List.drop_left ..
  have hne : m ++ t ≠ [] := by
    intro hh
    rcases List.append_eq_nil.mp hh with ⟨rfl, rfl⟩
    exact absurd hlen (by decide)
  obtain ⟨o, ho⟩ := wsThen_sessionGroup_some t
  rw [ho]
  apply scan_cons_of_some hne
  rw [hci]
  simp only [if_true]
  rw [hdrop, ho]

theorem searchSession_skip {p rest : List Char}
    (hp : ∀ i, i < p.length → ciPrefix sessionMarker (List.drop i (p ++ rest)) = false) :
    searchSessionTime (p ++ rest) = searchSessionTime rest := by
  induction p with
  | nil => simp
  | cons c t ih =>
    have h0 : ciPrefix sessionMarker (c :: (t ++ rest)) = false := by
      have := hp 0 (by simp)
      simpa using this
    show scan _ (c :: (t ++ rest)) = _
    simp only [scan]
    rw [h0]
    simp only [Bool.false_eq_true, if_false]
    exact ih fun i hi => by
      have := hp (i + 1) (by simp only [List.length_cons]; omega)
      simpa using this

/- ### The exception-aware run refines the pure run -/

theorem recordOfBlockE_eq (b : List Char) : recordOfBlockE b = .ok (recordOfBlock b) := by
  unfold recordOfBlockE recordOfBlock
  by_cases h0 : pyStrip b = []
  · simp [h0]
  · simp only [h0, if_false]
    cases hc : searchClient (pyStrip b) with
    | none => simp [clientNameOf, hc, deref]
    | some g =>
      cases hp : searchProvider (pyStrip b) with
      | none =>
        cases hd : searchDate (pyStrip b) with
        | none =>
          simp only [clientNameOf, providerValueOf, dateValueOf, hc, hp, hd, deref,
            Except.map, Option.isSome_some, if_true]
          split <;> rfl
        | some v =>
          simp only [clientNameOf, providerValueOf, dateValueOf, hc, hp, hd, deref,
            Except.map, Option.isSome_some, if_true]
          split <;> rfl
      | some g2 =>
        cases hd : searchDate (pyStrip b) with
        | none =>
          simp only [clientNameOf, providerValueOf, dateValueOf, hc, hp, hd, deref,
            Except.map, Option.isSome_some, if_true]
          split <;> rfl
        | some v =>
          simp only [clientNameOf, providerValueOf, dateValueOf, hc, hp, hd, deref,
            Except.map, Option.isSome_some, if_true]
          split <;> rfl

theorem collectE_eq (bs : List (List Char)) :
    collectE bs = .ok (bs.filterMap recordOfBlock) := by
  induction bs with
  | nil => rfl
  | cons b t ih =>
    simp only [collectE, recordOfBlockE_eq b, ih, List.filterMap_cons]
    cases hr : recordOfBlock b with
    | none => simp
    | some r => simp

theorem mk_eq_empty_iff {l : List Char} : (⟨l⟩ : String) = "" ↔ l = [] := by
  constructor
  · intro h
    exact congrArg String.data h
  · intro h
    rw [h]

/- ### The claims -/

/-- C3: for every input with zero occurrences of the literal marker `Client:`,
`parse_notes` returns the empty sequence of records. -/
theorem no_marker_no_records (text : String)
    (h : hasMarker clientMarker text.data = false) : parse_notes text = [] := by
  unfold parse_notes splitClient
  rw [splitAux_no_marker (hasMarker_suffix_false h) []]
  have hnone : searchClient (pyStrip text.data) = none :=
    searchClient_eq_none (hasMarker_pyStrip h)
  have hrec : recordOfBlock text.data = none :=
    recordOfBlock_eq_none_of_no_client (by simp [clientNameOf, hnone])
  simp [hrec]

theorem no_marker_no_records_witness : parse_notes "The quick brown fox." = [] :=
  no_marker_no_records "The quick brown fox." (by decide)

/-- C6: on the exact four-line example input, `parse_notes` returns exactly one
record with the four expected field values. -/
theorem end_to_end_example :
    parse_notes "Client: Jane Doe, ID 123\nRendering Provider: Dr. Smith\nDate: 2024/01/15\nSession Time: 9:00-10:00\n" =
      [⟨"Jane Doe", "Dr. Smith", "2024/01/15", "9:00-10:00"⟩] := by decide

/-- C5: `parse_notes` is total — the run in which every dereference of a
possibly-absent match object is modelled as a possible exception never raises,
and returns exactly the pure result, for every input string. -/
theorem parse_notes_total (text : String) :
    parseNotesE text = Except.ok (parse_notes text) := by
  unfold parseNotesE parse_notes
  exact collectE_eq (splitClient text.data)

/-- C4: every emitted record has a non-empty `Client`; the records are, in
order, the images of an order-preserving selection of the blocks; and their
number equals the number of valid blocks, so no merging or deduplication
occurs. -/
theorem records_order_invariants (text : String) :
    (∀ r ∈ parse_notes text, r.client ≠ "") ∧
    (∃ valid, valid.Sublist (splitClient text.data) ∧
      List.Forall₂ (fun b r => recordOfBlock b = some r) valid (parse_notes text)) ∧
    (parse_notes text).length =
      (splitClient text.data).countP (fun b => (recordOfBlock b).isSome) := by
  refine ⟨?_, ?_, ?_⟩
  · intro r hr
    obtain ⟨b, hb, hsome⟩ := List.mem_filterMap.mp hr
    obtain ⟨h1, h2, hre⟩ := recordOfBlock_eq_some hsome
    intro hcon
    rw [hre] at hcon
    exact h2 (congrArg String.data hcon)
  · exact filterMap_sublist_forall2 (splitClient text.data) recordOfBlock
  · exact List.length_filterMap_eq_countP ..

theorem records_order_invariants_witness :
    (parse_notes "Client: A\nClient: A").length =
      (splitClient "Client: A\nClient: A".data).countP
        (fun b => (recordOfBlock b).isSome) :=
  (records_order_invariants "Client: A\nClient: A").2.2

/-- C9: a block from which no non-empty client name can be extracted
contributes nothing to the output: the result is exactly the records of the
remaining blocks, in order. -/
theorem invalid_block_dropped (text : String) (pre post : List (List Char)) (b : List Char)
    (hsplit : splitClient text.data = pre ++ b :: post)
    (hclient : clientNameOf (pyStrip b) = []) :
    parse_notes text = pre.filterMap recordOfBlock ++ post.filterMap recordOfBlock := by
  unfold parse_notes
  rw [hsplit, List.filterMap_append, List.filterMap_cons,
    recordOfBlock_eq_none_of_no_client hclient]

theorem invalid_block_dropped_witness :
    parse_notes "Client: A\nClient: ,\nClient: B" =
      ([[], "Client: A\n".data] : List (List Char)).filterMap recordOfBlock ++
        (["Client: B".data] : List (List Char)).filterMap recordOfBlock :=
  invalid_block_dropped "Client: A\nClient: ,\nClient: B"
    [[], "Client: A\n".data] ["Client: B".data] "Client: ,\n".data (by decide) (by decide)

/-- C7: the `Date` field of an emitted record is either empty or a token of
shape `[0-9]{4}/[0-9]{2}/[0-9]{2}` sitting right after an occurrence of
`Date:` plus whitespace in the block; if no marker occurrence is followed by a
token of that shape — in particular if the marker is absent — the field is
empty. -/
theorem date_field_shape (block : List Char) (r : Record)
    (h : recordOfBlock block = some r) :
    (r.date = "" ∨
      (dateShapeB r.date.data = true ∧
        ∃ p w s, block = p ++ dateMarker ++ w ++ r.date.data ++ s ∧
          ∀ c ∈ w, pyWs c = true)) ∧
    ((¬ ∃ p w v s, block = p ++ dateMarker ++ w ++ v ++ s ∧
        (∀ c ∈ w, pyWs c = true) ∧ dateShapeB v = true) → r.date = "") ∧
    (hasMarker dateMarker block = false → r.date = "") := by
  obtain ⟨h1, h2, rfl⟩ := recordOfBlock_eq_some h
  have hmain : (⟨dateValueOf (pyStrip block)⟩ : String) = "" ∨
      (dateShapeB (dateValueOf (pyStrip block)) = true ∧
        ∃ p w s, block = p ++ dateMarker ++ w ++ dateValueOf (pyStrip block) ++ s ∧
          ∀ c ∈ w, pyWs c = true) := by
    cases hd : searchDate (pyStrip block) with
    | none =>
      left
      rw [mk_eq_empty_iff]
      simp [dateValueOf, hd]
    | some v =>
      right
      have hval : dateValueOf (pyStrip block) = v := by simp [dateValueOf, hd]
      obtain ⟨p, w, rest, hdec, hw, htok⟩ := searchDate_eq_some hd
      obtain ⟨hv, hshape, hrest⟩ := dateTok_eq_some htok
      obtain ⟨a, bb, hab⟩ := pyStrip_infix block
      refine ⟨by rw [hval]; exact hshape, a ++ p, w, rest.drop 10 ++ bb, ?_, hw⟩
      rw [hval]
      conv_lhs => rw [hab, hdec, hrest]
      simp [List.append_assoc]
  refine ⟨hmain, ?_, ?_⟩
  · intro hno
    rcases hmain with he | ⟨hshape, p, w, s, hdec, hw⟩
    · exact he
    · exact absurd ⟨p, w, dateValueOf (pyStrip block), s, hdec, hw, hshape⟩ hno
  · intro hnom
    rcases hmain with he | ⟨hshape, p, w, s, hdec, hw⟩
    · exact he
    · exfalso
      have hparts : block = p ++ dateMarker ++ (w ++ dateValueOf (pyStrip block) ++ s) := by
        conv_lhs => rw [hdec]
        simp [List.append_assoc]
      have htrue := hasMarker_parts dateMarker p (w ++ dateValueOf (pyStrip block) ++ s)
      rw [← hparts] at htrue
      rw [htrue] at hnom
      cases hnom

theorem date_field_shape_witness : (⟨"X", "", "", ""⟩ : Record).date = "" :=
  (date_field_shape "Client: X".data ⟨"X", "", "", ""⟩ (by decide)).2.2 (by decide)

/-- C8: parsing the concatenation of two strings that are each a single valid
block yields exactly the two records obtained from the parts, in order. -/
theorem concat_stability (b1 b2 : String) (r1 r2 : Record)
    (_hb1 : clientMarker.isPrefixOf b1.data = true)
    (hb2 : clientMarker.isPrefixOf b2.data = true)
    (p1 : parse_notes b1 = [r1]) (p2 : parse_notes b2 = [r2]) :
    parse_notes (b1 ++ b2) = [r1, r2] := by
  unfold parse_notes at p1 p2 ⊢
  have htail : (splitClient b2.data).filterMap recordOfBlock =
      ((splitClient b2.data).tail).filterMap recordOfBlock := by
    conv_lhs => rw [splitClient_cons_of_marker hb2]
    rw [List.filterMap_cons, recordOfBlock_nil]
  rw [htail] at p2
  rw [String.data_append, splitClient_append hb2, List.filterMap_append, p1, p2]
  rfl

theorem concat_stability_witness :
    parse_notes ("Client: Ann\n" ++ "Client: Ann") =
      [⟨"Ann", "", "", ""⟩, ⟨"Ann", "", "", ""⟩] :=
  concat_stability "Client: Ann\n" "Client: Ann" ⟨"Ann", "", "", ""⟩ ⟨"Ann", "", "", ""⟩
    (by decide) (by decide) (by decide) (by decide)

/-- C1 (amended): the `Client` field of an emitted record is the trimmed
capture of the leftmost match of `Client:` followed by whitespace — which may
span newlines — and then a maximal non-empty run of characters other than
newline and comma; it is non-empty, and a block yields no record when this
search fails or the trimmed capture is empty. -/
theorem client_field_rule (block : List Char) (r : Record)
    (h : recordOfBlock block = some r) :
    r.client ≠ "" ∧
    ∃ p w g s, pyStrip block = p ++ clientMarker ++ w ++ g ++ s ∧
      (∀ c ∈ w, pyWs c = true) ∧ g ≠ [] ∧
      (∀ c ∈ g, (c = '\n' || c = ',') = false) ∧
      (s = [] ∨ ∃ d s', s = d :: s' ∧ (d = '\n' || d = ',') = true) ∧
      r.client = ⟨pyStrip g⟩ := by
  obtain ⟨h1, h2, rfl⟩ := recordOfBlock_eq_some h
  cases hg : searchClient (pyStrip block) with
  | none => exact absurd (by simp [clientNameOf, hg]) h2
  | some g0 =>
    obtain ⟨p, w, rest, hdec, hw, hpg⟩ := searchClient_eq_some hg
    obtain ⟨s, hrest, hne, hgood, hlast⟩ := plusGroup_eq_some hpg
    have hcn : clientNameOf (pyStrip block) = pyStrip g0 := by simp [clientNameOf, hg]
    refine ⟨?_, p, w, g0, s, ?_, hw, hne, hgood, hlast, ?_⟩
    · intro hcon
      exact h2 (congrArg String.data hcon)
    · rw [hdec, hrest]
      simp [List.append_assoc]
    · show (⟨clientNameOf (pyStrip block)⟩ : String) = ⟨pyStrip g0⟩
      rw [hcn]

theorem client_field_rule_witness : (⟨"Jane Doe", "", "", ""⟩ : Record).client ≠ "" :=
  (client_field_rule "Client:\nJane Doe".data ⟨"Jane Doe", "", "", ""⟩ (by decide)).1

/-- C1 (counterexample to the claim as stated): in the block
`"Client:\nJane Doe"` the substring between `Client:` and the first following
newline is empty, so the claim demands that the block yield no record; the code
skips the newline (the pattern's `\s*` crosses it) and emits a record whose
`Client` is `"Jane Doe"`. -/
theorem client_newline_counterexample :
    specClientValue "Client:\nJane Doe".data = [] ∧
    parse_notes "Client:\nJane Doe" = [⟨"Jane Doe", "", "", ""⟩] :=
  ⟨by decide, by decide⟩

/-- C2 (amended): the `Session Time` field is either `""` (no match of the
marker, bare dash, or nothing after it) or the captured range verbatim — the
capture may end with whitespace swallowed by the greedy `\s*` before an absent
meridiem and is not trimmed; the two examples of the claim hold as stated,
the range there ending the (stripped) block. -/
theorem session_time_rule (block : List Char) (r : Record)
    (h : recordOfBlock block = some r) :
    (r.sessionTime = "" ∨
      ∃ p m w cap s, pyStrip block = p ++ m ++ w ++ cap ++ s ∧
        m.map Char.toLower = sessionMarker.map Char.toLower ∧
        (∀ c ∈ w, pyWs c = true) ∧ cap ≠ [] ∧
        timeRange (cap ++ s) = some s ∧ r.sessionTime = ⟨cap⟩) ∧
    parse_notes "Client: X\nSession Time: -" = [⟨"X", "", "", ""⟩] ∧
    parse_notes "Client: X\nSession Time: 9:00 AM - 10:00 AM" =
      [⟨"X", "", "", "9:00 AM - 10:00 AM"⟩] := by
  refine ⟨?_, by decide, by decide⟩
  obtain ⟨h1, h2, rfl⟩ := recordOfBlock_eq_some h
  cases hs : searchSessionTime (pyStrip block) with
  | none =>
    left
    show (⟨sessionValueOf (pyStrip block)⟩ : String) = ""
    rw [mk_eq_empty_iff]
    simp [sessionValueOf, hs]
  | some o =>
    cases o with
    | none =>
      left
      show (⟨sessionValueOf (pyStrip block)⟩ : String) = ""
      rw [mk_eq_empty_iff]
      simp [sessionValueOf, hs]
    | some cap =>
      have hval : sessionValueOf (pyStrip block) = cap := by simp [sessionValueOf, hs]
      by_cases hcap : cap = []
      · left
        show (⟨sessionValueOf (pyStrip block)⟩ : String) = ""
        rw [mk_eq_empty_iff, hval]
        exact hcap
      · right
        obtain ⟨p, m, w, s, hdec, hm, hw, htr⟩ := searchSessionTime_eq_capture hs
        refine ⟨p, m, w, cap, s, hdec, hm, hw, hcap, htr, ?_⟩
        show (⟨sessionValueOf (pyStrip block)⟩ : String) = ⟨cap⟩
        rw [hval]

theorem session_time_rule_witness :
    parse_notes "Client: X\nSession Time: -" = [⟨"X", "", "", ""⟩] :=
  (session_time_rule "Client: X\nSession Time: 9:00-10:00".data
    ⟨"X", "", "", "9:00-10:00"⟩ (by decide)).2.1

/-- C2 (counterexample to the claim as stated): when text follows the range on
the next line, the captured range keeps the trailing newline — the emitted
`Session Time` is `"9:00 - 10:00\n"`, which is not trimmed of surrounding
whitespace as the claim requires. -/
theorem session_time_untrimmed_counterexample :
    (parse_notes "Client: X\nSession Time: 9:00 - 10:00\nDate: 2024/01/15").map
        Record.sessionTime = ["9:00 - 10:00\n"] ∧
    pyStrip "9:00 - 10:00\n".data ≠ "9:00 - 10:00\n".data :=
  ⟨by decide, by decide⟩

/-- C10: the `Session Time:` marker is matched case-insensitively — any casing
placed at the same position is recognized and yields the same search result —
while the `Client:`, `Rendering Provider:` and `Date:` searches succeed only
when their marker occurs with its exact casing. -/
theorem marker_case_rules (p m t : List Char)
    (hm : m.map Char.toLower = sessionMarker.map Char.toLower)
    (hp : ∀ i, i < p.length →
      ciPrefix sessionMarker (List.drop i (p ++ (sessionMarker ++ t))) = false) :
    searchSessionTime (p ++ (m ++ t)) = searchSessionTime (p ++ (sessionMarker ++ t)) ∧
    (searchSessionTime (p ++ (m ++ t))).isSome = true ∧
    (∀ b, hasMarker clientMarker b = false → searchClient b = none) ∧
    (∀ b, hasMarker providerMarker b = false → searchProvider b = none) ∧
    (∀ b, hasMarker dateMarker b = false → searchDate b = none) := by
  have hmap : (p ++ (m ++ t)).map Char.toLower =
      (p ++ (sessionMarker ++ t)).map Char.toLower := by
    simp only [List.map_append, hm]
  have hp' : ∀ i, i < p.length →
      ciPrefix sessionMarker (List.drop i (p ++ (m ++ t))) = false := by
    intro i hi
    have hcongr : ciPrefix sessionMarker (List.drop i (p ++ (m ++ t))) =
        ciPrefix sessionMarker (List.drop i (p ++ (sessionMarker ++ t))) := by
      apply ciPrefix_congr
      rw [List.map_drop, List.map_drop, hmap]
    rw [hcongr]
    exact hp i hi
  have e1 : searchSessionTime (p ++ (m ++ t)) = wsThen sessionGroup t := by
    rw [searchSession_skip hp', searchSession_at_marker hm]
  have e2 : searchSessionTime (p ++ (sessionMarker ++ t)) = wsThen sessionGroup t := by
    rw [searchSession_skip hp, searchSession_at_marker rfl]
  obtain ⟨o, ho⟩ := wsThen_sessionGroup_some t
  refine ⟨by rw [e1, e2], by rw [e1, ho]; rfl, ?_, ?_, ?_⟩
  · intro b hb
    exact searchClient_eq_none hb
  · intro b hb
    exact searchProvider_eq_none hb
  · intro b hb
    exact searchDate_eq_none hb

theorem marker_case_rules_witness :
    searchSessionTime ("Client: X\n".data ++ ("SESSION TIME:".data ++ " 9:00 - 10:00".data)) =
      searchSessionTime ("Client: X\n".data ++ (sessionMarker ++ " 9:00 - 10:00".data)) :=
  (marker_case_rules "Client: X\n".data "SESSION TIME:".data " 9:00 - 10:00".data
    (by decide) (by decide)).1

end Billing
